import Mathlib

/-!
# yamldiff: matching and structural diff

A shallow embedding of `internal/parser/parser.go` (`ExtractKey`, `splitPath`,
`CompareValues`), `internal/diff/diff.go` (`Engine.makeDocMap`,
`Engine.Compare`, `Result.HasDifferences`) and `internal/config/config.go`
(`CompareConfig.GetLabels`).

Modelling conventions.

* A decoded YAML value (`interface{}` in the Go source) is the inductive type
  `Value`.  Floating point numbers and timestamps are left out; numbers are
  integers.
* A Go `map[string]T` is an association list `GoMap T`.  Reading `m[k]` is the
  first binding of `k` (`GoMap.get`), writing `m[k] = v` puts a new binding in
  front (`GoMap.set`), so the older binding is shadowed.  The key set is
  `GoMap.keys` (without repetitions) and `len(m)` is the number of keys.
* Strings are sequences of Unicode characters; `splitPath` ranges over them as
  Go ranges over the runes of a well-formed UTF-8 string.
* Go leaves the order of `for k := range m` unspecified.  Every function that
  ranges over a map takes a parameter `ρ : List String → List String`, the order
  in which the runtime enumerates a key set; `IterOrder ρ` says that `ρ` only
  permutes the keys.
-/

namespace YamlDiff

/-! ## Values and Go maps -/

/-- A decoded YAML value: what `interface{}` holds after `yaml.Decode`. -/
inductive Value where
  | null
  | bool (b : Bool)
  | int (n : Int)
  | str (s : String)
  | seq (xs : List Value)
  | map (kvs : List (String × Value))

/-- A Go `map[string]α`, as an association list read from the front. -/
abbrev GoMap (α : Type) := List (String × α)

namespace GoMap

variable {α : Type}

/-- The two-result read `v, ok := m[k]`. -/
def get (m : GoMap α) (k : String) : Option α := List.lookup k m

/-- The assignment `m[k] = v`. -/
def set (m : GoMap α) (k : String) (v : α) : GoMap α := (k, v) :: m

/-- The key set of the map, each key once. -/
def keys (m : GoMap α) : List String := (m.map Prod.fst).dedup

/-- The builtin `len(m)`. -/
def len (m : GoMap α) : Nat := (keys m).length

/-- Membership of a key: the `ok` of `_, ok := m[k]`. -/
def contains (m : GoMap α) (k : String) : Bool := (get m k).isSome

end GoMap

/-- An enumeration order `ρ` is admissible when it lists exactly the keys it is
given, each as often as given. -/
def IterOrder (ρ : List String → List String) : Prop := ∀ l, (ρ l).Perm l

/-- Byte-wise comparison of two strings, the order of `sort.Strings` and of the
key order `fmt` uses when it prints a map. -/
def strLe (a b : String) : Bool := decide (a.data ≤ b.data)

/-- The enumeration order that lists keys in lexicographic order. -/
def sortedOrder (l : List String) : List String :=
  l.insertionSort (fun a b => strLe a b = true)

/-! ## `fmt.Sprintf("%v", v)` -/

mutual
/-- The rendering `fmt.Sprintf("%v", v)` of a value: `<nil>`, `true`/`false`,
decimal integers, strings as they are, `[x y z]` for a sequence and
`map[k:v k:v]` with the keys in sorted order for a mapping. -/
def fmtV : Value → String
  | .null => "<nil>"
  | .bool b => if b then "true" else "false"
  | .int n => toString n
  | .str s => s
  | .seq xs => "[" ++ " ".intercalate (fmtSeq xs) ++ "]"
  | .map kvs =>
      "map[" ++ " ".intercalate
        (((fmtEntries kvs).insertionSort (fun a b => strLe a.1 b.1 = true)).map
          (fun e => e.1 ++ ":" ++ e.2)) ++ "]"
/-- The renderings of the elements of a sequence. -/
def fmtSeq : List Value → List String
  | [] => []
  | x :: xs => fmtV x :: fmtSeq xs
/-- The keys of a mapping with the renderings of their values. -/
def fmtEntries : List (String × Value) → List (String × String)
  | [] => []
  | (k, v) :: rest => (k, fmtV v) :: fmtEntries rest
end

/-! ## `parser.go`: key extraction -/

/-- One step of the loop of `splitPath`: the state is `(result, current)`. -/
def splitPathStep (st : List String × String) (char : Char) : List String × String :=
  if char = '.' then
    if st.2 ≠ "" then (st.1 ++ [st.2], "") else st
  else
    (st.1, st.2 ++ String.singleton char)

/-- The function `splitPath` of `parser.go`. -/
def splitPath (path : String) : List String :=
  let st := path.data.foldl splitPathStep ([], "")
  if st.2 ≠ "" then st.1 ++ [st.2] else st.1

/-- The loop of `ExtractKey`: `none` is the early `return ""`, `some current` the
value held when the keys are used up.  A key that is absent reads as `nil`. -/
def extractLoop : Value → List String → Option Value
  | current, [] => some current
  | .map m, key :: keys => extractLoop ((GoMap.get m key).getD .null) keys
  | _, _ :: _ => none

/-- The function `ExtractKey` of `parser.go`. -/
def ExtractKey (data : GoMap Value) (path : String) : String :=
  match extractLoop (.map data) (splitPath path) with
  | none => ""
  | some (.str str) => str
  | some _ => ""

/-! ### The reference navigation of the specification -/

/-- The segments of a path: its pieces between dots, the empty ones dropped. -/
def pathSegments (path : String) : List String :=
  ((path.data.splitOn '.').filter (fun seg => seg ≠ [])).map String.mk

/-- Descend from a value through nested mappings, one segment at a time; `none`
when a segment is absent or the value met is not a mapping. -/
def descend : Value → List String → Option Value
  | v, [] => some v
  | .map m, seg :: segs =>
      match GoMap.get m seg with
      | some child => descend child segs
      | none => none
  | _, _ :: _ => none

/-- The reference key extraction: the string reached by the segments of the path,
and the empty string in every other case. -/
def extractKeyRef (root : GoMap Value) (path : String) : String :=
  match descend (.map root) (pathSegments path) with
  | some (.str s) => s
  | _ => ""

/-! ## `parser.go`: structural comparison -/

/-- The type assertion `v.(map[string]interface{})`. -/
def asMap : Value → Option (GoMap Value)
  | .map m => some m
  | _ => none

/-- The key set `allKeys` that `CompareValues` and `Compare` build with two
`range` loops, one over each map. -/
def allKeysOf {α : Type} (ρ : List String → List String) (m1 m2 : GoMap α) : GoMap Bool :=
  let allKeys : GoMap Bool := []
  let allKeys := (ρ (GoMap.keys m1)).foldl (fun s k => GoMap.set s k true) allKeys
  (ρ (GoMap.keys m2)).foldl (fun s k => GoMap.set s k true) allKeys

theorem sizeOf_get_lt {m : GoMap Value} {k : String} {v : Value}
    (h : GoMap.get m k = some v) : sizeOf v < sizeOf m := by
  induction m with
  | nil => simp [GoMap.get] at h
  | cons e rest ih =>
    obtain ⟨k', v'⟩ := e
    simp only [GoMap.get, List.lookup_cons] at h ih
    split at h
    · simp only [Option.some.injEq] at h
      subst h
      simp
      omega
    · have := ih h
      simp
      omega

theorem sizeOf_asMap {v : Value} {m : GoMap Value} (h : asMap v = some m) :
    sizeOf m < sizeOf v := by
  cases v <;> simp [asMap] at h
  subst h
  simp

/-- The function `CompareValues` of `parser.go`.  Each entry is the line that
`fmt.Sprintf` formats: `+ path: v`, `- path: v` or `~ path: old â†’ new`. -/
def CompareValues (ρ : List String → List String) (path : String) (oldVal newVal : Value) :
    List String :=
  match _h : asMap oldVal, asMap newVal with
  | some oldMap, some newMap =>
      (ρ (GoMap.keys (allKeysOf ρ oldMap newMap))).foldl (fun diffs key =>
        let newPath := if path = "" then key else path ++ "." ++ key
        match _h1 : GoMap.get oldMap key, GoMap.get newMap key with
        | none, some newV => diffs ++ ["+ " ++ newPath ++ ": " ++ fmtV newV]
        | some oldV, none => diffs ++ ["- " ++ newPath ++ ": " ++ fmtV oldV]
        | some oldV, some newV => diffs ++ CompareValues ρ newPath oldV newV
        | none, none => diffs) []
  | _, _ =>
      if fmtV oldVal ≠ fmtV newVal then
        ["~ " ++ path ++ ": " ++ fmtV oldVal ++ " â†’ " ++ fmtV newVal]
      else []
termination_by sizeOf oldVal
decreasing_by
  have h1 := sizeOf_asMap ‹asMap oldVal = some oldMap›
  have h2 := sizeOf_get_lt ‹GoMap.get oldMap key = some oldV›
  omega

/-! ### The reference structural diff of the specification -/

/-- A field-level change record: its path and the value or values it carries. -/
inductive DiffEntry where
  | added (path : String) (newValue : Value)
  | deleted (path : String) (oldValue : Value)
  | changed (path : String) (oldValue newValue : Value)

/-- The line of text by which `CompareValues` reports an entry. -/
def DiffEntry.render : DiffEntry → String
  | .added path v => "+ " ++ path ++ ": " ++ fmtV v
  | .deleted path v => "- " ++ path ++ ": " ++ fmtV v
  | .changed path o n => "~ " ++ path ++ ": " ++ fmtV o ++ " â†’ " ++ fmtV n

/-- The path of the child `k` below `path`. -/
def childPath (path k : String) : String :=
  if path ≠ "" then path ++ "." ++ k else k

/-- The reference structural diff.  For two mappings: the union of the keys in
sorted order, a key only in the new mapping gives one `added` entry, a key only
in the old one gives one `deleted` entry, a key in both gives the entries of the
two children.  Otherwise: one `changed` entry when the renderings differ, and
nothing when they are equal. -/
def structuralDiff (path : String) (oldValue newValue : Value) : List DiffEntry :=
  match _h : asMap oldValue, asMap newValue with
  | some oldMap, some newMap =>
      (sortedOrder (GoMap.keys oldMap ∪ GoMap.keys newMap)).flatMap (fun k =>
        match _h1 : GoMap.get oldMap k, GoMap.get newMap k with
        | none, some newChild => [.added (childPath path k) newChild]
        | some oldChild, none => [.deleted (childPath path k) oldChild]
        | some oldChild, some newChild => structuralDiff (childPath path k) oldChild newChild
        | none, none => [])
  | _, _ =>
      if fmtV oldValue = fmtV newValue then [] else [.changed path oldValue newValue]
termination_by sizeOf oldValue
decreasing_by
  have h1 := sizeOf_asMap ‹asMap oldValue = some oldMap›
  have h2 := sizeOf_get_lt ‹GoMap.get oldMap k = some oldChild›
  omega

/-! ## `diff.go`: matching and classification -/

/-- The struct `parser.Document`. -/
structure Document where
  Content : GoMap Value
  Raw : String
  Key : String

/-- The struct `ModifiedDoc`. -/
structure ModifiedDoc where
  Old : Document
  New : Document
  Diffs : List String

/-- The struct `Result`. -/
structure Result where
  Added : GoMap Document
  Deleted : GoMap Document
  Modified : GoMap ModifiedDoc

/-- The zero `Document`, which a map read yields for an absent key. -/
def zeroDocument : Document := ⟨[], "", ""⟩

/-- The fallback identifier `fmt.Sprintf("__index_%d__", i)`. -/
def indexKey (i : Nat) : String := "__index_" ++ toString i ++ "__"

/-- The loop of `makeDocMap`, from index `i` on. -/
def makeDocMapLoop (identifierPath : String) :
    Nat → List Document → GoMap Document → GoMap Document
  | _, [], result => result
  | i, doc :: docs, result =>
      let key := ExtractKey doc.Content identifierPath
      let key := if key = "" then indexKey i else key
      makeDocMapLoop identifierPath (i + 1) docs (GoMap.set result key { doc with Key := key })

/-- The method `Engine.makeDocMap` of `diff.go`. -/
def makeDocMap (identifierPath : String) (docs : List Document) : GoMap Document :=
  makeDocMapLoop identifierPath 0 docs []

/-- The one-result read `m[key]` of a map of documents: the zero `Document` when
the key is absent. -/
def docAt (m : GoMap Document) (key : String) : Document :=
  (GoMap.get m key).getD zeroDocument

/-- The body of the classification loop of `Compare`, for one key. -/
def compareStep (ρ : List String → List String) (map1 map2 : GoMap Document)
    (result : Result) (key : String) : Result :=
  let doc1 := docAt map1 key
  let exists1 := GoMap.contains map1 key
  let doc2 := docAt map2 key
  let exists2 := GoMap.contains map2 key
  if !exists1 && exists2 then
    { result with Added := GoMap.set result.Added key doc2 }
  else if exists1 && !exists2 then
    { result with Deleted := GoMap.set result.Deleted key doc1 }
  else if doc1.Raw ≠ doc2.Raw then
    let diffs := CompareValues ρ "" (.map doc1.Content) (.map doc2.Content)
    { result with
      Modified := GoMap.set result.Modified key { Old := doc1, New := doc2, Diffs := diffs } }
  else result

/-- The method `Engine.Compare` of `diff.go`. -/
def Compare (ρ : List String → List String) (identifierPath : String)
    (docs1 docs2 : List Document) : Result :=
  let map1 := makeDocMap identifierPath docs1
  let map2 := makeDocMap identifierPath docs2
  let result : Result := { Added := [], Deleted := [], Modified := [] }
  let allKeys := allKeysOf ρ map1 map2
  (ρ (GoMap.keys allKeys)).foldl (compareStep ρ map1 map2) result

/-- The method `Result.HasDifferences` of `diff.go`. -/
def HasDifferences (r : Result) : Bool :=
  decide (GoMap.len r.Added > 0) || decide (GoMap.len r.Deleted > 0) ||
    decide (GoMap.len r.Modified > 0)

/-- The identifier the matcher gives the document at index `i`: the extracted
key when it is not empty, and the fallback `__index_<i>__` otherwise. -/
def docId (identifierPath : String) (docs : List Document) (i : Nat) : String :=
  let key := ExtractKey (docs.getD i zeroDocument).Content identifierPath
  if key = "" then "__index_" ++ toString i ++ "__" else key


/-- The string a finished navigation yields: the content of a string scalar. -/
def resultString : Option Value → String
  | some (.str s) => s
  | _ => ""

/-! ## Auxiliary definitions for the statements -/

/-- The condition of the first branch of the loop body of `Compare`: the key is
only in the second map. -/
def isAdded (map1 map2 : GoMap Document) (key : String) : Bool :=
  !GoMap.contains map1 key && GoMap.contains map2 key

/-- The condition under which the second branch is taken: the key is only in the
first map. -/
def isDeleted (map1 map2 : GoMap Document) (key : String) : Bool :=
  GoMap.contains map1 key && !GoMap.contains map2 key

/-- The condition under which the third branch is taken: the key is in both maps
and the two `Raw` strings differ. -/
def isModified (map1 map2 : GoMap Document) (key : String) : Bool :=
  GoMap.contains map1 key && GoMap.contains map2 key &&
    decide ((docAt map1 key).Raw ≠ (docAt map2 key).Raw)

/-- The record `Compare` stores for a modified key. -/
def modifiedDoc (ρ : List String → List String) (map1 map2 : GoMap Document) (key : String) :
    ModifiedDoc :=
  { Old := docAt map1 key
    New := docAt map2 key
    Diffs := CompareValues ρ "" (.map (docAt map1 key).Content) (.map (docAt map2 key).Content) }

/-- The identifier `makeDocMap` computes for the document `doc` met at index `i`. -/
def idAt (identifierPath : String) (i : Nat) (doc : Document) : String :=
  let key := ExtractKey doc.Content identifierPath
  if key = "" then indexKey i else key

/-- The entries the loop body of `CompareValues` appends for one key. -/
def keyEntries (ρ : List String → List String) (path : String) (oldMap newMap : GoMap Value)
    (key : String) : List String :=
  match GoMap.get oldMap key, GoMap.get newMap key with
  | none, some newV => ["+ " ++ (if path = "" then key else path ++ "." ++ key) ++ ": " ++ fmtV newV]
  | some oldV, none => ["- " ++ (if path = "" then key else path ++ "." ++ key) ++ ": " ++ fmtV oldV]
  | some oldV, some newV =>
      CompareValues ρ (if path = "" then key else path ++ "." ++ key) oldV newV
  | none, none => []

/-- The entries of the reference structural diff for one key of two mappings. -/
def refKeyEntries (path : String) (oldMap newMap : GoMap Value) (k : String) :
    List DiffEntry :=
  match GoMap.get oldMap k, GoMap.get newMap k with
  | none, some newChild => [.added (childPath path k) newChild]
  | some oldChild, none => [.deleted (childPath path k) oldChild]
  | some oldChild, some newChild => structuralDiff (childPath path k) oldChild newChild
  | none, none => []

/-! ## `config.go`: labels -/

/-- The struct `LabelConfig`. -/
structure LabelConfig where
  Label : String

/-- The struct `CompareConfig`. -/
structure CompareConfig where
  Template : String
  WhenHasAdditions : LabelConfig
  WhenHasDeletions : LabelConfig
  WhenHasModifications : LabelConfig
  WhenNoChanges : LabelConfig
  DisableComment : Bool
  DisableLabel : Bool

/-- The method `CompareConfig.GetLabels` of `config.go`.  The three counts are Go
`int`s; they are only compared with zero. -/
def GetLabels (c : CompareConfig) (added deleted modified : Int) : List String :=
  let labels : List String := []
  let hasAdd := decide (added > 0)
  let hasDelete := decide (deleted > 0)
  let hasModify := decide (modified > 0)
  if !hasAdd && !hasDelete && !hasModify then
    if c.WhenNoChanges.Label ≠ "" then labels ++ [c.WhenNoChanges.Label] else labels
  else
    let labels :=
      if hasAdd && decide (c.WhenHasAdditions.Label ≠ "") then
        labels ++ [c.WhenHasAdditions.Label]
      else labels
    let labels :=
      if hasDelete && decide (c.WhenHasDeletions.Label ≠ "") then
        labels ++ [c.WhenHasDeletions.Label]
      else labels
    let labels :=
      if hasModify && decide (c.WhenHasModifications.Label ≠ "") then
        labels ++ [c.WhenHasModifications.Label]
      else labels
    labels

/-- The labels of the change categories, in the order additions, deletions,
modifications, each with the count of its category. -/
def changeLabels (c : CompareConfig) (added deleted modified : Int) : List (Int × String) :=
  [(added, c.WhenHasAdditions.Label), (deleted, c.WhenHasDeletions.Label),
    (modified, c.WhenHasModifications.Label)]

/-- The reference label choice: the configured labels of the categories whose
count is positive and whose label is not empty, in order. -/
def applicableLabels (c : CompareConfig) (added deleted modified : Int) : List String :=
  ((changeLabels c added deleted modified).filter
    (fun p => decide (0 < p.1) && decide (p.2 ≠ ""))).map Prod.snd

/-- Equality up to rendering, the relation `CompareValues` tests: two mappings
are related when they have the same keys and related children under each key;
when one side is not a mapping, the two are related when `fmt` renders them
alike. -/
inductive RenderEq : Value → Value → Prop where
  | leaf (oldVal newVal : Value) (h : asMap oldVal = none ∨ asMap newVal = none)
      (hfmt : fmtV oldVal = fmtV newVal) : RenderEq oldVal newVal
  | maps (oldMap newMap : GoMap Value)
      (hkeys : ∀ k, k ∈ GoMap.keys oldMap ↔ k ∈ GoMap.keys newMap)
      (hchild : ∀ k oldV newV, GoMap.get oldMap k = some oldV → GoMap.get newMap k = some newV →
        RenderEq oldV newV) : RenderEq (.map oldMap) (.map newMap)

/-! ## Key extraction agrees with the reference navigation -/

theorem string_ne_empty_iff (s : String) : s ≠ "" ↔ s.data ≠ [] := by
  constructor
  · intro h hd
    apply h
    exact String.ext hd
  · intro h hs
    apply h
    rw [hs]

theorem splitPath_fold (cs : List Char) (res : List String) (cur : String) :
    (if (cs.foldl splitPathStep (res, cur)).2 ≠ "" then
        (cs.foldl splitPathStep (res, cur)).1 ++ [(cs.foldl splitPathStep (res, cur)).2]
      else (cs.foldl splitPathStep (res, cur)).1) =
      res ++ (((cs.splitOn '.').modifyHead (fun seg => cur.data ++ seg)).filter
        (fun seg => seg ≠ [])).map String.mk := by
  induction cs generalizing res cur with
  | nil =>
    by_cases h : cur = ""
    · simp [List.splitOn, List.splitOnP_nil, h]
    · have h' := (string_ne_empty_iff cur).1 h
      simp [List.splitOn, List.splitOnP_nil, h, h']
  | cons c cs ih =>
    have hne : cs.splitOn '.' ≠ [] := List.splitOnP_ne_nil _ _
    obtain ⟨hd, tl, htl⟩ := List.exists_cons_of_ne_nil hne
    by_cases hc : c = '.'
    · subst hc
      have hsplit : ('.' :: cs).splitOn '.' = [] :: cs.splitOn '.' := by
        simp [List.splitOn, List.splitOnP_cons]
      rw [List.foldl_cons, hsplit]
      by_cases h : cur = ""
      · have hstep : splitPathStep (res, cur) '.' = (res, "") := by
          simp [splitPathStep, h]
        rw [hstep, ih, htl]
        simp [h]
      · have h' := (string_ne_empty_iff cur).1 h
        have hstep : splitPathStep (res, cur) '.' = (res ++ [cur], "") := by
          simp [splitPathStep, h]
        rw [hstep, ih, htl]
        simp [h']
    · have hsplit : (c :: cs).splitOn '.' = (cs.splitOn '.').modifyHead (List.cons c) := by
        simp [List.splitOn, List.splitOnP_cons, hc]
      have hstep : splitPathStep (res, cur) c = (res, cur ++ String.singleton c) := by
        simp [splitPathStep, hc]
      rw [List.foldl_cons, hsplit, hstep, ih, htl]
      simp [String.singleton]

theorem splitPath_eq_pathSegments (path : String) : splitPath path = pathSegments path := by
  have h := splitPath_fold path.data [] ""
  have hne : path.data.splitOn '.' ≠ [] := List.splitOnP_ne_nil _ _
  obtain ⟨hd, tl, htl⟩ := List.exists_cons_of_ne_nil hne
  unfold splitPath pathSegments
  simp only [] at h ⊢
  rw [h, htl]
  simp

theorem extractLoop_null (ks : List String) : resultString (extractLoop .null ks) = "" := by
  cases ks <;> simp [extractLoop, resultString]

theorem extractLoop_eq_descend (v : Value) (ks : List String) :
    resultString (extractLoop v ks) = resultString (descend v ks) := by
  induction ks generalizing v with
  | nil => simp [extractLoop, descend]
  | cons k ks ih =>
    cases v with
    | map m =>
      simp only [extractLoop, descend]
      cases hg : GoMap.get m k with
      | none =>
        simp only [Option.getD_none]
        rw [extractLoop_null]
        rfl
      | some child => simpa using ih child
    | _ => simp [extractLoop, descend]

theorem ExtractKey_eq_resultString (data : GoMap Value) (path : String) :
    ExtractKey data path = resultString (extractLoop (.map data) (splitPath path)) := by
  unfold ExtractKey
  cases h : extractLoop (.map data) (splitPath path) with
  | none => simp [resultString]
  | some v => cases v <;> simp [resultString]

theorem extractKeyRef_eq_resultString (root : GoMap Value) (path : String) :
    extractKeyRef root path = resultString (descend (.map root) (pathSegments path)) := by
  unfold extractKeyRef
  cases h : descend (.map root) (pathSegments path) with
  | none => simp [resultString]
  | some v => cases v <;> simp [resultString]

/-- C4: `ExtractKey` is total and equals the reference navigation over the
non-empty dot-separated segments of the path; the three examples of the
specification evaluate as stated. -/
theorem ExtractKey_eq_reference :
    (∀ (root : GoMap Value) (path : String), ExtractKey root path = extractKeyRef root path) ∧
    ExtractKey [("a", .map [("b", .str "x")])] "a.b" = "x" ∧
    ExtractKey [("a", .map [("b", .str "x")])] "a.c" = "" ∧
    ExtractKey [("a", .str "x")] "a.b" = "" := by
  refine ⟨fun root path => ?_, by decide, by decide, by decide⟩
  rw [ExtractKey_eq_resultString, extractKeyRef_eq_resultString, splitPath_eq_pathSegments]
  exact extractLoop_eq_descend _ _

/-! ## Go maps -/

theorem GoMap.get_set {α : Type} (m : GoMap α) (k k' : String) (v : α) :
    GoMap.get (GoMap.set m k v) k' = if k' = k then some v else GoMap.get m k' := by
  unfold GoMap.get GoMap.set
  rw [List.lookup_cons]
  by_cases h : k' = k
  · simp [h]
  · have hb : (k' == k) = false := by simpa using h
    simp [h, hb]

theorem GoMap.mem_keys {α : Type} (m : GoMap α) (k : String) :
    k ∈ GoMap.keys m ↔ (GoMap.get m k).isSome = true := by
  unfold GoMap.keys
  rw [List.mem_dedup]
  induction m with
  | nil => simp [GoMap.get]
  | cons e rest ih =>
    obtain ⟨k', v⟩ := e
    have hs : GoMap.get ((k', v) :: rest) k = if k = k' then some v else GoMap.get rest k :=
      GoMap.get_set rest k' k v
    rw [hs, List.map_cons, List.mem_cons, ih]
    by_cases h : k = k'
    · simp [h]
    · simp [h]

theorem GoMap.mem_keys_iff_contains {α : Type} (m : GoMap α) (k : String) :
    k ∈ GoMap.keys m ↔ GoMap.contains m k = true := GoMap.mem_keys m k

theorem GoMap.nodup_keys {α : Type} (m : GoMap α) : (GoMap.keys m).Nodup :=
  List.nodup_dedup _

theorem GoMap.len_pos_iff {α : Type} (m : GoMap α) : 0 < GoMap.len m ↔ m ≠ [] := by
  unfold GoMap.len GoMap.keys
  cases m with
  | nil => simp
  | cons e rest =>
    have hmem : e.1 ∈ (List.map Prod.fst (e :: rest)).dedup := by
      rw [List.mem_dedup]
      simp
    have := List.length_pos_of_mem hmem
    simpa using this

theorem GoMap.keys_foldl_set (l : List String) (s : GoMap Bool) (k : String) :
    k ∈ GoMap.keys (l.foldl (fun s k => GoMap.set s k true) s) ↔ k ∈ l ∨ k ∈ GoMap.keys s := by
  induction l generalizing s with
  | nil => simp
  | cons a l ih =>
    rw [List.foldl_cons, ih, GoMap.mem_keys (GoMap.set s a true), GoMap.get_set, List.mem_cons,
      GoMap.mem_keys]
    by_cases h : k = a
    · simp [h]
    · simp [h]

theorem mem_allKeysOf {α : Type} {ρ : List String → List String} (hρ : IterOrder ρ)
    (m1 m2 : GoMap α) (k : String) :
    k ∈ ρ (GoMap.keys (allKeysOf ρ m1 m2)) ↔ k ∈ GoMap.keys m1 ∨ k ∈ GoMap.keys m2 := by
  rw [(hρ _).mem_iff]
  unfold allKeysOf
  simp only []
  rw [GoMap.keys_foldl_set, GoMap.keys_foldl_set, (hρ _).mem_iff, (hρ _).mem_iff]
  have : k ∉ GoMap.keys ([] : GoMap Bool) := by simp [GoMap.keys]
  tauto

/-! ## The classification loop of `Compare` -/

theorem compareStep_Added (ρ : List String → List String) (map1 map2 : GoMap Document)
    (r : Result) (key : String) :
    (compareStep ρ map1 map2 r key).Added =
      if isAdded map1 map2 key = true then
        GoMap.set r.Added key (docAt map2 key)
      else r.Added := by
  unfold compareStep isAdded GoMap.contains docAt
  cases h1 : GoMap.get map1 key <;> cases h2 : GoMap.get map2 key <;> simp
  split <;> rfl

theorem compareStep_Deleted (ρ : List String → List String) (map1 map2 : GoMap Document)
    (r : Result) (key : String) :
    (compareStep ρ map1 map2 r key).Deleted =
      if isDeleted map1 map2 key = true then
        GoMap.set r.Deleted key (docAt map1 key)
      else r.Deleted := by
  unfold compareStep isDeleted GoMap.contains docAt
  cases h1 : GoMap.get map1 key <;> cases h2 : GoMap.get map2 key <;> simp
  split <;> rfl

theorem compareStep_Modified (ρ : List String → List String) (map1 map2 : GoMap Document)
    (r : Result) (key : String) :
    (compareStep ρ map1 map2 r key).Modified =
      if isModified map1 map2 key = true then
        GoMap.set r.Modified key (modifiedDoc ρ map1 map2 key)
      else r.Modified := by
  unfold compareStep isModified modifiedDoc GoMap.contains docAt
  cases h1 : GoMap.get map1 key <;> cases h2 : GoMap.get map2 key <;> simp [zeroDocument]
  split <;> rfl

theorem compareFold_Added (ρ : List String → List String) (map1 map2 : GoMap Document)
    (ks : List String) (r : Result) (k : String) :
    GoMap.get (ks.foldl (compareStep ρ map1 map2) r).Added k =
      if k ∈ ks ∧ isAdded map1 map2 k = true then GoMap.get map2 k
      else GoMap.get r.Added k := by
  induction ks generalizing r with
  | nil => simp
  | cons a ks ih =>
    rw [List.foldl_cons, ih, compareStep_Added]
    by_cases hk : k ∈ ks ∧ isAdded map1 map2 k = true
    · have hk' : k ∈ a :: ks ∧ isAdded map1 map2 k = true := ⟨List.mem_cons_of_mem _ hk.1, hk.2⟩
      rw [if_pos hk, if_pos hk']
    · rw [if_neg hk]
      by_cases ha : isAdded map1 map2 a = true
      · rw [if_pos ha, GoMap.get_set]
        by_cases hka : k = a
        · subst hka
          have hc : GoMap.contains map2 k = true := by
            unfold isAdded at ha
            simp only [Bool.and_eq_true] at ha
            exact ha.2
          unfold GoMap.contains at hc
          obtain ⟨d, hd⟩ := Option.isSome_iff_exists.1 hc
          simp [ha, hd, docAt]
        · have hn : ¬(k ∈ a :: ks ∧ isAdded map1 map2 k = true) := by
            rintro ⟨hm, hadd⟩
            rcases List.mem_cons.1 hm with h | h
            · exact hka h
            · exact hk ⟨h, hadd⟩
          rw [if_neg hka, if_neg hn]
      · rw [if_neg ha]
        have hn : ¬(k ∈ a :: ks ∧ isAdded map1 map2 k = true) := by
          rintro ⟨hm, hadd⟩
          rcases List.mem_cons.1 hm with h | h
          · subst h
            exact ha hadd
          · exact hk ⟨h, hadd⟩
        rw [if_neg hn]

theorem compareFold_Deleted (ρ : List String → List String) (map1 map2 : GoMap Document)
    (ks : List String) (r : Result) (k : String) :
    GoMap.get (ks.foldl (compareStep ρ map1 map2) r).Deleted k =
      if k ∈ ks ∧ isDeleted map1 map2 k = true then GoMap.get map1 k
      else GoMap.get r.Deleted k := by
  induction ks generalizing r with
  | nil => simp
  | cons a ks ih =>
    rw [List.foldl_cons, ih, compareStep_Deleted]
    by_cases hk : k ∈ ks ∧ isDeleted map1 map2 k = true
    · have hk' : k ∈ a :: ks ∧ isDeleted map1 map2 k = true :=
        ⟨List.mem_cons_of_mem _ hk.1, hk.2⟩
      rw [if_pos hk, if_pos hk']
    · rw [if_neg hk]
      by_cases ha : isDeleted map1 map2 a = true
      · rw [if_pos ha, GoMap.get_set]
        by_cases hka : k = a
        · subst hka
          have hc : GoMap.contains map1 k = true := by
            unfold isDeleted at ha
            simp only [Bool.and_eq_true] at ha
            exact ha.1
          unfold GoMap.contains at hc
          obtain ⟨d, hd⟩ := Option.isSome_iff_exists.1 hc
          simp [ha, hd, docAt]
        · have hn : ¬(k ∈ a :: ks ∧ isDeleted map1 map2 k = true) := by
            rintro ⟨hm, hadd⟩
            rcases List.mem_cons.1 hm with h | h
            · exact hka h
            · exact hk ⟨h, hadd⟩
          rw [if_neg hka, if_neg hn]
      · rw [if_neg ha]
        have hn : ¬(k ∈ a :: ks ∧ isDeleted map1 map2 k = true) := by
          rintro ⟨hm, hadd⟩
          rcases List.mem_cons.1 hm with h | h
          · subst h
            exact ha hadd
          · exact hk ⟨h, hadd⟩
        rw [if_neg hn]

theorem compareFold_Modified (ρ : List String → List String) (map1 map2 : GoMap Document)
    (ks : List String) (r : Result) (k : String) :
    GoMap.get (ks.foldl (compareStep ρ map1 map2) r).Modified k =
      if k ∈ ks ∧ isModified map1 map2 k = true then some (modifiedDoc ρ map1 map2 k)
      else GoMap.get r.Modified k := by
  induction ks generalizing r with
  | nil => simp
  | cons a ks ih =>
    rw [List.foldl_cons, ih, compareStep_Modified]
    by_cases hk : k ∈ ks ∧ isModified map1 map2 k = true
    · have hk' : k ∈ a :: ks ∧ isModified map1 map2 k = true :=
        ⟨List.mem_cons_of_mem _ hk.1, hk.2⟩
      rw [if_pos hk, if_pos hk']
    · rw [if_neg hk]
      by_cases ha : isModified map1 map2 a = true
      · rw [if_pos ha, GoMap.get_set]
        by_cases hka : k = a
        · subst hka
          simp [ha]
        · have hn : ¬(k ∈ a :: ks ∧ isModified map1 map2 k = true) := by
            rintro ⟨hm, hadd⟩
            rcases List.mem_cons.1 hm with h | h
            · exact hka h
            · exact hk ⟨h, hadd⟩
          rw [if_neg hka, if_neg hn]
      · rw [if_neg ha]
        have hn : ¬(k ∈ a :: ks ∧ isModified map1 map2 k = true) := by
          rintro ⟨hm, hadd⟩
          rcases List.mem_cons.1 hm with h | h
          · subst h
            exact ha hadd
          · exact hk ⟨h, hadd⟩
        rw [if_neg hn]

theorem isAdded_iff (map1 map2 : GoMap Document) (k : String) :
    isAdded map1 map2 k = true ↔ k ∉ GoMap.keys map1 ∧ k ∈ GoMap.keys map2 := by
  unfold isAdded
  rw [GoMap.mem_keys_iff_contains, GoMap.mem_keys_iff_contains]
  simp

theorem isDeleted_iff (map1 map2 : GoMap Document) (k : String) :
    isDeleted map1 map2 k = true ↔ k ∈ GoMap.keys map1 ∧ k ∉ GoMap.keys map2 := by
  unfold isDeleted
  rw [GoMap.mem_keys_iff_contains, GoMap.mem_keys_iff_contains]
  simp

theorem isModified_iff (map1 map2 : GoMap Document) (k : String) :
    isModified map1 map2 k = true ↔
      k ∈ GoMap.keys map1 ∧ k ∈ GoMap.keys map2 ∧ (docAt map1 k).Raw ≠ (docAt map2 k).Raw := by
  unfold isModified
  rw [GoMap.mem_keys_iff_contains, GoMap.mem_keys_iff_contains]
  simp [and_assoc]

/-- The keys `Compare` classifies as added, with the documents stored. -/
theorem Compare_Added {ρ : List String → List String} (hρ : IterOrder ρ) (path : String)
    (docs1 docs2 : List Document) (k : String) :
    GoMap.get (Compare ρ path docs1 docs2).Added k =
      if isAdded (makeDocMap path docs1) (makeDocMap path docs2) k = true then
        GoMap.get (makeDocMap path docs2) k
      else none := by
  unfold Compare
  simp only []
  rw [compareFold_Added]
  have hmem := mem_allKeysOf hρ (makeDocMap path docs1) (makeDocMap path docs2) k
  by_cases h : isAdded (makeDocMap path docs1) (makeDocMap path docs2) k = true
  · have h' := (isAdded_iff _ _ _).1 h
    rw [if_pos ⟨hmem.2 (Or.inr h'.2), h⟩, if_pos h]
  · rw [if_neg (fun hh => h hh.2), if_neg h]
    rfl

theorem Compare_Deleted {ρ : List String → List String} (hρ : IterOrder ρ) (path : String)
    (docs1 docs2 : List Document) (k : String) :
    GoMap.get (Compare ρ path docs1 docs2).Deleted k =
      if isDeleted (makeDocMap path docs1) (makeDocMap path docs2) k = true then
        GoMap.get (makeDocMap path docs1) k
      else none := by
  unfold Compare
  simp only []
  rw [compareFold_Deleted]
  have hmem := mem_allKeysOf hρ (makeDocMap path docs1) (makeDocMap path docs2) k
  by_cases h : isDeleted (makeDocMap path docs1) (makeDocMap path docs2) k = true
  · have h' := (isDeleted_iff _ _ _).1 h
    rw [if_pos ⟨hmem.2 (Or.inl h'.1), h⟩, if_pos h]
  · rw [if_neg (fun hh => h hh.2), if_neg h]
    rfl

theorem Compare_Modified {ρ : List String → List String} (hρ : IterOrder ρ) (path : String)
    (docs1 docs2 : List Document) (k : String) :
    GoMap.get (Compare ρ path docs1 docs2).Modified k =
      if isModified (makeDocMap path docs1) (makeDocMap path docs2) k = true then
        some (modifiedDoc ρ (makeDocMap path docs1) (makeDocMap path docs2) k)
      else none := by
  unfold Compare
  simp only []
  rw [compareFold_Modified]
  have hmem := mem_allKeysOf hρ (makeDocMap path docs1) (makeDocMap path docs2) k
  by_cases h : isModified (makeDocMap path docs1) (makeDocMap path docs2) k = true
  · have h' := (isModified_iff _ _ _).1 h
    rw [if_pos ⟨hmem.2 (Or.inl h'.1), h⟩, if_pos h]
  · rw [if_neg (fun hh => h hh.2), if_neg h]
    rfl

theorem mem_Added_iff {ρ : List String → List String} (hρ : IterOrder ρ) (path : String)
    (docs1 docs2 : List Document) (k : String) :
    k ∈ GoMap.keys (Compare ρ path docs1 docs2).Added ↔
      isAdded (makeDocMap path docs1) (makeDocMap path docs2) k = true := by
  rw [GoMap.mem_keys, Compare_Added hρ]
  by_cases h : isAdded (makeDocMap path docs1) (makeDocMap path docs2) k = true
  · have h' := ((isAdded_iff _ _ _).1 h).2
    rw [GoMap.mem_keys] at h'
    simp [h, h']
  · simp [h]

theorem mem_Deleted_iff {ρ : List String → List String} (hρ : IterOrder ρ) (path : String)
    (docs1 docs2 : List Document) (k : String) :
    k ∈ GoMap.keys (Compare ρ path docs1 docs2).Deleted ↔
      isDeleted (makeDocMap path docs1) (makeDocMap path docs2) k = true := by
  rw [GoMap.mem_keys, Compare_Deleted hρ]
  by_cases h : isDeleted (makeDocMap path docs1) (makeDocMap path docs2) k = true
  · have h' := ((isDeleted_iff _ _ _).1 h).1
    rw [GoMap.mem_keys] at h'
    simp [h, h']
  · simp [h]

theorem mem_Modified_iff {ρ : List String → List String} (hρ : IterOrder ρ) (path : String)
    (docs1 docs2 : List Document) (k : String) :
    k ∈ GoMap.keys (Compare ρ path docs1 docs2).Modified ↔
      isModified (makeDocMap path docs1) (makeDocMap path docs2) k = true := by
  rw [GoMap.mem_keys, Compare_Modified hρ]
  by_cases h : isModified (makeDocMap path docs1) (makeDocMap path docs2) k = true
  · simp [h]
  · simp [h]

/-- C1: the result of `Compare` records a key as added exactly when it is only in
the second map, as deleted exactly when it is only in the first, as modified
exactly when it is in both with different `Raw`; the stored values are the
second map's document, the first map's document, and the pair of documents with
the diff of their contents. -/
theorem Compare_classification (ρ : List String → List String) (hρ : IterOrder ρ)
    (path : String) (docs1 docs2 : List Document) (k : String) :
    (k ∈ GoMap.keys (Compare ρ path docs1 docs2).Added ↔
      k ∈ GoMap.keys (makeDocMap path docs2) ∧ k ∉ GoMap.keys (makeDocMap path docs1)) ∧
    (k ∈ GoMap.keys (Compare ρ path docs1 docs2).Added →
      GoMap.get (Compare ρ path docs1 docs2).Added k = GoMap.get (makeDocMap path docs2) k) ∧
    (k ∈ GoMap.keys (Compare ρ path docs1 docs2).Deleted ↔
      k ∈ GoMap.keys (makeDocMap path docs1) ∧ k ∉ GoMap.keys (makeDocMap path docs2)) ∧
    (k ∈ GoMap.keys (Compare ρ path docs1 docs2).Deleted →
      GoMap.get (Compare ρ path docs1 docs2).Deleted k = GoMap.get (makeDocMap path docs1) k) ∧
    (k ∈ GoMap.keys (Compare ρ path docs1 docs2).Modified ↔
      k ∈ GoMap.keys (makeDocMap path docs1) ∧ k ∈ GoMap.keys (makeDocMap path docs2) ∧
        (docAt (makeDocMap path docs1) k).Raw ≠ (docAt (makeDocMap path docs2) k).Raw) ∧
    (k ∈ GoMap.keys (Compare ρ path docs1 docs2).Modified →
      GoMap.get (Compare ρ path docs1 docs2).Modified k =
        some { Old := docAt (makeDocMap path docs1) k
               New := docAt (makeDocMap path docs2) k
               Diffs := CompareValues ρ "" (.map (docAt (makeDocMap path docs1) k).Content)
                 (.map (docAt (makeDocMap path docs2) k).Content) }) := by
  refine ⟨?_, ?_, ?_, ?_, ?_, ?_⟩
  · rw [mem_Added_iff hρ, isAdded_iff]
    exact And.comm
  · intro h
    rw [Compare_Added hρ, if_pos ((mem_Added_iff hρ _ _ _ _).1 h)]
  · rw [mem_Deleted_iff hρ, isDeleted_iff]
  · intro h
    rw [Compare_Deleted hρ, if_pos ((mem_Deleted_iff hρ _ _ _ _).1 h)]
  · rw [mem_Modified_iff hρ, isModified_iff]
  · intro h
    rw [Compare_Modified hρ, if_pos ((mem_Modified_iff hρ _ _ _ _).1 h)]
    rfl

/-- C1, on two concrete collections: the enumeration order that reverses the key
list, the identifier path `metadata.name`, and the key `b`, which only the second
collection has. -/
theorem Compare_classification_witness :
    IterOrder List.reverse ∧
    GoMap.get (Compare List.reverse "metadata.name"
        [⟨[("metadata", .map [("name", .str "a")])], "a1", ""⟩]
        [⟨[("metadata", .map [("name", .str "a")])], "a2", ""⟩,
         ⟨[("metadata", .map [("name", .str "b")])], "b1", ""⟩]).Added "b" =
      GoMap.get (makeDocMap "metadata.name"
        [⟨[("metadata", .map [("name", .str "a")])], "a2", ""⟩,
         ⟨[("metadata", .map [("name", .str "b")])], "b1", ""⟩]) "b" :=
  ⟨fun l => List.reverse_perm l,
    (Compare_classification List.reverse (fun l => List.reverse_perm l) "metadata.name"
      [⟨[("metadata", .map [("name", .str "a")])], "a1", ""⟩]
      [⟨[("metadata", .map [("name", .str "a")])], "a2", ""⟩,
       ⟨[("metadata", .map [("name", .str "b")])], "b1", ""⟩] "b").2.1
      ((Compare_classification List.reverse (fun l => List.reverse_perm l) "metadata.name"
        [⟨[("metadata", .map [("name", .str "a")])], "a1", ""⟩]
        [⟨[("metadata", .map [("name", .str "a")])], "a2", ""⟩,
         ⟨[("metadata", .map [("name", .str "b")])], "b1", ""⟩] "b").1.2
        ⟨by decide, by decide⟩)⟩

/-- C2: the keys recorded as added, deleted and modified are pairwise disjoint,
all come from one of the two maps, and every key of either map is in exactly one
of the four classes added, deleted, modified, unchanged (in both maps with the
same `Raw`). -/
theorem Compare_partition (ρ : List String → List String) (hρ : IterOrder ρ)
    (path : String) (docs1 docs2 : List Document) (k : String) :
    ¬(k ∈ GoMap.keys (Compare ρ path docs1 docs2).Added ∧
        k ∈ GoMap.keys (Compare ρ path docs1 docs2).Deleted) ∧
    ¬(k ∈ GoMap.keys (Compare ρ path docs1 docs2).Added ∧
        k ∈ GoMap.keys (Compare ρ path docs1 docs2).Modified) ∧
    ¬(k ∈ GoMap.keys (Compare ρ path docs1 docs2).Deleted ∧
        k ∈ GoMap.keys (Compare ρ path docs1 docs2).Modified) ∧
    (k ∈ GoMap.keys (Compare ρ path docs1 docs2).Added ∨
        k ∈ GoMap.keys (Compare ρ path docs1 docs2).Deleted ∨
        k ∈ GoMap.keys (Compare ρ path docs1 docs2).Modified →
      k ∈ GoMap.keys (makeDocMap path docs1) ∨ k ∈ GoMap.keys (makeDocMap path docs2)) ∧
    (k ∈ GoMap.keys (makeDocMap path docs1) ∨ k ∈ GoMap.keys (makeDocMap path docs2) →
      (k ∈ GoMap.keys (Compare ρ path docs1 docs2).Added ∨
        k ∈ GoMap.keys (Compare ρ path docs1 docs2).Deleted ∨
        k ∈ GoMap.keys (Compare ρ path docs1 docs2).Modified ∨
        (k ∈ GoMap.keys (makeDocMap path docs1) ∧ k ∈ GoMap.keys (makeDocMap path docs2) ∧
          (docAt (makeDocMap path docs1) k).Raw = (docAt (makeDocMap path docs2) k).Raw)) ∧
      ¬(k ∈ GoMap.keys (Compare ρ path docs1 docs2).Added ∧
        (k ∈ GoMap.keys (makeDocMap path docs1) ∧ k ∈ GoMap.keys (makeDocMap path docs2) ∧
          (docAt (makeDocMap path docs1) k).Raw = (docAt (makeDocMap path docs2) k).Raw)) ∧
      ¬(k ∈ GoMap.keys (Compare ρ path docs1 docs2).Deleted ∧
        (k ∈ GoMap.keys (makeDocMap path docs1) ∧ k ∈ GoMap.keys (makeDocMap path docs2) ∧
          (docAt (makeDocMap path docs1) k).Raw = (docAt (makeDocMap path docs2) k).Raw)) ∧
      ¬(k ∈ GoMap.keys (Compare ρ path docs1 docs2).Modified ∧
        (k ∈ GoMap.keys (makeDocMap path docs1) ∧ k ∈ GoMap.keys (makeDocMap path docs2) ∧
          (docAt (makeDocMap path docs1) k).Raw = (docAt (makeDocMap path docs2) k).Raw))) := by
  rw [mem_Added_iff hρ, mem_Deleted_iff hρ, mem_Modified_iff hρ, isAdded_iff, isDeleted_iff,
    isModified_iff]
  tauto

/-- C2, on two concrete collections and the key `a`, which both have with
different `Raw`. -/
theorem Compare_partition_witness :
    IterOrder List.reverse ∧
    ¬("a" ∈ GoMap.keys (Compare List.reverse "metadata.name"
        [⟨[("metadata", .map [("name", .str "a")])], "a1", ""⟩]
        [⟨[("metadata", .map [("name", .str "a")])], "a2", ""⟩,
         ⟨[("metadata", .map [("name", .str "b")])], "b1", ""⟩]).Added ∧
      "a" ∈ GoMap.keys (Compare List.reverse "metadata.name"
        [⟨[("metadata", .map [("name", .str "a")])], "a1", ""⟩]
        [⟨[("metadata", .map [("name", .str "a")])], "a2", ""⟩,
         ⟨[("metadata", .map [("name", .str "b")])], "b1", ""⟩]).Deleted) :=
  ⟨fun l => List.reverse_perm l,
    (Compare_partition List.reverse (fun l => List.reverse_perm l) "metadata.name"
      [⟨[("metadata", .map [("name", .str "a")])], "a1", ""⟩]
      [⟨[("metadata", .map [("name", .str "a")])], "a2", ""⟩,
       ⟨[("metadata", .map [("name", .str "b")])], "b1", ""⟩] "a").1⟩

theorem compareStep_self (ρ : List String → List String) (m : GoMap Document) (r : Result)
    (key : String) : compareStep ρ m m r key = r := by
  unfold compareStep
  cases h : GoMap.contains m key <;> simp

theorem compareFold_self (ρ : List String → List String) (m : GoMap Document)
    (ks : List String) (r : Result) : ks.foldl (compareStep ρ m m) r = r := by
  induction ks generalizing r with
  | nil => rfl
  | cons a ks ih => rw [List.foldl_cons, compareStep_self, ih]

/-- C3: comparing a collection with itself records nothing, whatever the
collection (duplicate and missing identifiers included), the identifier path and
the enumeration order; `HasDifferences` is then false. -/
theorem Compare_self (ρ : List String → List String) (path : String) (docs : List Document) :
    (Compare ρ path docs docs).Added = [] ∧
    (Compare ρ path docs docs).Deleted = [] ∧
    (Compare ρ path docs docs).Modified = [] ∧
    HasDifferences (Compare ρ path docs docs) = false := by
  have h : Compare ρ path docs docs = { Added := [], Deleted := [], Modified := [] } := by
    unfold Compare
    simp only []
    rw [compareFold_self]
  rw [h]
  exact ⟨rfl, rfl, rfl, rfl⟩

/-- C10: `HasDifferences` is true exactly when one of the three maps of the
result is non-empty, and false exactly when all three are empty. -/
theorem HasDifferences_iff (r : Result) :
    (HasDifferences r = true ↔ r.Added ≠ [] ∨ r.Deleted ≠ [] ∨ r.Modified ≠ []) ∧
    (HasDifferences r = false ↔ r.Added = [] ∧ r.Deleted = [] ∧ r.Modified = []) := by
  have h : HasDifferences r = true ↔ r.Added ≠ [] ∨ r.Deleted ≠ [] ∨ r.Modified ≠ [] := by
    unfold HasDifferences
    simp only [Bool.or_eq_true, decide_eq_true_eq, gt_iff_lt, GoMap.len_pos_iff, or_assoc]
  refine ⟨h, ?_⟩
  rw [← Bool.not_eq_true, h]
  tauto

/-! ## The matcher `makeDocMap` -/

theorem docId_eq_idAt (path : String) (docs : List Document) (i : Nat) :
    docId path docs i = idAt path i (docs.getD i zeroDocument) := rfl

theorem makeDocMapLoop_cons (path : String) (i : Nat) (doc : Document) (docs : List Document)
    (result : GoMap Document) :
    makeDocMapLoop path i (doc :: docs) result =
      makeDocMapLoop path (i + 1) docs
        (GoMap.set result (idAt path i doc) { doc with Key := idAt path i doc }) := rfl

/-- What the loop of `makeDocMap` leaves under a key: the last document of the
list with that identifier, or the former binding when there is none. -/
theorem makeDocMapLoop_get (path : String) (docs : List Document) (i : Nat)
    (result : GoMap Document) (k : String) :
    (∃ j, j < docs.length ∧ idAt path (i + j) (docs.getD j zeroDocument) = k ∧
        (∀ j', j < j' → j' < docs.length →
          idAt path (i + j') (docs.getD j' zeroDocument) ≠ k) ∧
        GoMap.get (makeDocMapLoop path i docs result) k =
          some { docs.getD j zeroDocument with Key := k }) ∨
    ((∀ j, j < docs.length → idAt path (i + j) (docs.getD j zeroDocument) ≠ k) ∧
        GoMap.get (makeDocMapLoop path i docs result) k = GoMap.get result k) := by
  induction docs generalizing i result with
  | nil =>
    right
    exact ⟨fun j hj => absurd hj (Nat.not_lt_zero j), rfl⟩
  | cons d ds ih =>
    rw [makeDocMapLoop_cons]
    rcases ih (i + 1) (GoMap.set result (idAt path i d) { d with Key := idAt path i d })
      with ⟨j, hj, hid, hlast, hget⟩ | ⟨hnone, hget⟩
    · left
      refine ⟨j + 1, by simpa using hj, ?_, ?_, ?_⟩
      · rw [List.getD_cons_succ, ← hid]
        congr 1
        omega
      · intro j' hjj' hj'
        obtain ⟨j'', rfl⟩ : ∃ j'', j' = j'' + 1 := ⟨j' - 1, by omega⟩
        rw [List.getD_cons_succ]
        have := hlast j'' (by omega) (by simpa using hj')
        rwa [show i + 1 + j'' = i + (j'' + 1) by omega] at this
      · rw [hget, List.getD_cons_succ]
    · by_cases hd : idAt path i d = k
      · left
        refine ⟨0, by simp, by simpa using hd, ?_, ?_⟩
        · intro j' hjj' hj'
          obtain ⟨j'', rfl⟩ : ∃ j'', j' = j'' + 1 := ⟨j' - 1, by omega⟩
          rw [List.getD_cons_succ]
          have := hnone j'' (by simpa using hj')
          rwa [show i + 1 + j'' = i + (j'' + 1) by omega] at this
        · rw [hget, GoMap.get_set, hd]
          simp
      · right
        refine ⟨?_, ?_⟩
        · intro j hj
          cases j with
          | zero => simpa using hd
          | succ j'' =>
            rw [List.getD_cons_succ]
            have := hnone j'' (by simpa using hj)
            rwa [show i + 1 + j'' = i + (j'' + 1) by omega] at this
        · rw [hget, GoMap.get_set, if_neg (fun h => hd h.symm)]

theorem makeDocMap_get (path : String) (docs : List Document) (k : String) :
    (∃ j, j < docs.length ∧ docId path docs j = k ∧
        (∀ j', j < j' → j' < docs.length → docId path docs j' ≠ k) ∧
        GoMap.get (makeDocMap path docs) k =
          some { docs.getD j zeroDocument with Key := k }) ∨
    ((∀ j, j < docs.length → docId path docs j ≠ k) ∧
        GoMap.get (makeDocMap path docs) k = none) := by
  have h := makeDocMapLoop_get path docs 0 [] k
  simp only [Nat.zero_add] at h
  exact h

theorem indexKey_ne_empty (i : Nat) : indexKey i ≠ "" := by
  intro h
  have h' := congrArg String.data h
  simp [indexKey] at h'

theorem docId_ne_empty (path : String) (docs : List Document) (i : Nat) :
    docId path docs i ≠ "" := by
  rw [docId_eq_idAt]
  unfold idAt
  simp only []
  split
  · exact indexKey_ne_empty i
  · assumption

/-- C5: the keys of `makeDocMap docs` are exactly the identifiers of the
documents, none is the empty string, and under each key the map holds the last
document with that identifier, with its `Key` field set to the key and its
`Content` and `Raw` unchanged. -/
theorem makeDocMap_spec (path : String) (docs : List Document) :
    (∀ k, k ∈ GoMap.keys (makeDocMap path docs) ↔
      ∃ i, i < docs.length ∧ docId path docs i = k) ∧
    "" ∉ GoMap.keys (makeDocMap path docs) ∧
    (∀ k, k ∈ GoMap.keys (makeDocMap path docs) →
      ∃ j, j < docs.length ∧ docId path docs j = k ∧
        (∀ j', j < j' → j' < docs.length → docId path docs j' ≠ k) ∧
        GoMap.get (makeDocMap path docs) k =
          some { Content := (docs.getD j zeroDocument).Content
                 Raw := (docs.getD j zeroDocument).Raw
                 Key := k }) := by
  have hmem : ∀ k, k ∈ GoMap.keys (makeDocMap path docs) ↔
      ∃ i, i < docs.length ∧ docId path docs i = k := by
    intro k
    rw [GoMap.mem_keys]
    rcases makeDocMap_get path docs k with ⟨j, hj, hid, _, hget⟩ | ⟨hnone, hget⟩
    · rw [hget]
      exact ⟨fun _ => ⟨j, hj, hid⟩, fun _ => rfl⟩
    · rw [hget]
      constructor
      · intro h
        simp at h
      · rintro ⟨i, hi, hid⟩
        exact absurd hid (hnone i hi)
  refine ⟨hmem, ?_, ?_⟩
  · intro h
    obtain ⟨i, _, hid⟩ := (hmem "").1 h
    exact docId_ne_empty path docs i hid
  · intro k hk
    rcases makeDocMap_get path docs k with ⟨j, hj, hid, hlast, hget⟩ | ⟨hnone, _⟩
    · exact ⟨j, hj, hid, hlast, hget⟩
    · obtain ⟨i, hi, hid⟩ := (hmem k).1 hk
      exact absurd hid (hnone i hi)

/-! ## Fallback identifiers -/

theorem digitChar_toNat : ∀ d, d < 10 → (Nat.digitChar d).toNat - 48 = d := by
  decide

theorem toDigitsCore_decode (fuel n : Nat) (ds : List Char) (h : n < fuel) :
    ∃ xs, Nat.toDigitsCore 10 fuel n ds = xs ++ ds ∧
      xs.foldl (fun a c => a * 10 + (c.toNat - 48)) 0 = n := by
  induction fuel generalizing n ds with
  | zero => exact absurd h (Nat.not_lt_zero n)
  | succ fuel ih =>
    unfold Nat.toDigitsCore
    simp only []
    by_cases h0 : n / 10 = 0
    · rw [if_pos h0]
      refine ⟨[Nat.digitChar (n % 10)], rfl, ?_⟩
      simp only [List.foldl_cons, List.foldl_nil, Nat.zero_mul, Nat.zero_add]
      rw [digitChar_toNat _ (Nat.mod_lt _ (by decide))]
      omega
    · rw [if_neg h0]
      obtain ⟨xs, hxs, hdec⟩ := ih (n / 10) (Nat.digitChar (n % 10) :: ds) (by omega)
      refine ⟨xs ++ [Nat.digitChar (n % 10)], ?_, ?_⟩
      · rw [hxs]
        simp
      · rw [List.foldl_append, hdec]
        simp only [List.foldl_cons, List.foldl_nil]
        rw [digitChar_toNat _ (Nat.mod_lt _ (by decide))]
        omega

theorem toString_nat_injective (a b : Nat) (h : toString a = toString b) : a = b := by
  have h' : Nat.toDigits 10 a = Nat.toDigits 10 b := by
    have := congrArg String.data h
    simpa [toString, Nat.repr, List.asString] using this
  unfold Nat.toDigits at h'
  obtain ⟨xa, hxa, hda⟩ := toDigitsCore_decode (a + 1) a [] (Nat.lt_succ_self a)
  obtain ⟨xb, hxb, hdb⟩ := toDigitsCore_decode (b + 1) b [] (Nat.lt_succ_self b)
  rw [hxa, hxb] at h'
  simp only [List.append_nil] at h'
  rw [← hda, ← hdb, h']

theorem indexKey_injective (i j : Nat) (h : indexKey i = indexKey j) : i = j := by
  apply toString_nat_injective
  have h' := congrArg String.data h
  unfold indexKey at h'
  simp only [String.data_append] at h'
  have h1 := List.append_cancel_right h'
  have h2 := List.append_cancel_left h1
  exact String.ext h2

/-- C8, as stated, fails: in the collection below the first document has no
`metadata.name` and gets the fallback `__index_0__`, the second document is named
`__index_0__`, so both get the same identifier and the map keeps the second. -/
theorem fallback_collision :
    ExtractKey (([⟨[], "first", ""⟩,
        ⟨[("metadata", .map [("name", .str "__index_0__")])], "second", ""⟩] :
        List Document).getD 0 zeroDocument).Content "metadata.name" = "" ∧
    docId "metadata.name" [⟨[], "first", ""⟩,
        ⟨[("metadata", .map [("name", .str "__index_0__")])], "second", ""⟩] 0 =
      "__index_0__" ∧
    docId "metadata.name" [⟨[], "first", ""⟩,
        ⟨[("metadata", .map [("name", .str "__index_0__")])], "second", ""⟩] 1 =
      "__index_0__" ∧
    GoMap.get (makeDocMap "metadata.name" [⟨[], "first", ""⟩,
        ⟨[("metadata", .map [("name", .str "__index_0__")])], "second", ""⟩])
        "__index_0__" =
      some ⟨[("metadata", .map [("name", .str "__index_0__")])], "second", "__index_0__"⟩ := by
  refine ⟨by decide, by decide, by decide, rfl⟩

/-- C8, amended: when the document at index `i` has no extractable identifier and
no document of the collection has the string `__index_<i>__` as its extracted
identifier, the document at index `i` gets `__index_<i>__`, no document at
another index gets it, and the map holds the document at index `i` under it. -/
theorem fallback_unique (path : String) (docs : List Document) (i : Nat)
    (hi : i < docs.length)
    (hE : ExtractKey (docs.getD i zeroDocument).Content path = "")
    (hfree : ∀ j, j < docs.length →
      ExtractKey (docs.getD j zeroDocument).Content path ≠ "__index_" ++ toString i ++ "__") :
    docId path docs i = "__index_" ++ toString i ++ "__" ∧
    (∀ j, j < docs.length → j ≠ i → docId path docs j ≠ "__index_" ++ toString i ++ "__") ∧
    GoMap.get (makeDocMap path docs) ("__index_" ++ toString i ++ "__") =
      some { docs.getD i zeroDocument with Key := "__index_" ++ toString i ++ "__" } := by
  have hid : docId path docs i = "__index_" ++ toString i ++ "__" := by
    unfold docId
    simp only []
    rw [if_pos hE]
  have hother : ∀ j, j < docs.length → j ≠ i →
      docId path docs j ≠ "__index_" ++ toString i ++ "__" := by
    intro j hj hji
    unfold docId
    simp only []
    split
    · intro h
      exact hji (indexKey_injective j i h)
    · exact hfree j hj
  refine ⟨hid, hother, ?_⟩
  rcases makeDocMap_get path docs ("__index_" ++ toString i ++ "__") with
    ⟨j, hj, hjid, _, hget⟩ | ⟨hnone, _⟩
  · by_cases hji : j = i
    · rw [hget, hji]
    · exact absurd hjid (hother j hj hji)
  · exact absurd hid (hnone i hi)

/-- C8, amended, on a collection of two documents of which the first has no
name. -/
theorem fallback_unique_witness :
    GoMap.get (makeDocMap "metadata.name"
        [⟨[], "first", ""⟩, ⟨[("metadata", .map [("name", .str "x")])], "second", ""⟩])
        ("__index_" ++ toString 0 ++ "__") =
      some { ([⟨[], "first", ""⟩,
          ⟨[("metadata", .map [("name", .str "x")])], "second", ""⟩] :
          List Document).getD 0 zeroDocument with Key := "__index_" ++ toString 0 ++ "__" } :=
  (fallback_unique "metadata.name"
    [⟨[], "first", ""⟩, ⟨[("metadata", .map [("name", .str "x")])], "second", ""⟩] 0
    (by decide) (by decide)
    (by
      intro j hj
      have hj' : j < 2 := hj
      interval_cases j <;> decide)).2.2

theorem iterOrder_singleton {ρ : List String → List String} (hρ : IterOrder ρ) (k : String) :
    ρ [k] = [k] := List.perm_singleton.1 (hρ [k])

/-- C9: for two one-document collections whose documents have no extractable
identifier and different `Raw`, `Compare` records nothing as added or deleted and
records the single key `__index_0__` as modified, with the two documents (their
`Key` set to `__index_0__`) as `Old` and `New`. -/
theorem Compare_fallback_pair (ρ : List String → List String) (hρ : IterOrder ρ)
    (path : String) (d1 d2 : Document)
    (h1 : ExtractKey d1.Content path = "") (h2 : ExtractKey d2.Content path = "")
    (hraw : d1.Raw ≠ d2.Raw) :
    (Compare ρ path [d1] [d2]).Added = [] ∧
    (Compare ρ path [d1] [d2]).Deleted = [] ∧
    (Compare ρ path [d1] [d2]).Modified =
      [("__index_0__",
        { Old := { d1 with Key := "__index_0__" }
          New := { d2 with Key := "__index_0__" }
          Diffs := CompareValues ρ "" (.map d1.Content) (.map d2.Content) })] := by
  have hm1 : makeDocMap path [d1] = [("__index_0__", { d1 with Key := "__index_0__" })] := by
    simp [makeDocMap, makeDocMapLoop, h1, GoMap.set, indexKey]
    decide
  have hm2 : makeDocMap path [d2] = [("__index_0__", { d2 with Key := "__index_0__" })] := by
    simp [makeDocMap, makeDocMapLoop, h2, GoMap.set, indexKey]
    decide
  have hkeys : ρ (GoMap.keys (allKeysOf ρ
      ([("__index_0__", { d1 with Key := "__index_0__" })] : GoMap Document)
      [("__index_0__", { d2 with Key := "__index_0__" })])) = ["__index_0__"] := by
    have hk1 : GoMap.keys ([("__index_0__", { d1 with Key := "__index_0__" })] :
        GoMap Document) = ["__index_0__"] := rfl
    have hk2 : GoMap.keys ([("__index_0__", { d2 with Key := "__index_0__" })] :
        GoMap Document) = ["__index_0__"] := rfl
    unfold allKeysOf
    simp only []
    rw [hk1, hk2, iterOrder_singleton hρ]
    have hk3 : GoMap.keys (List.foldl (fun s k => GoMap.set s k true)
        (List.foldl (fun s k => GoMap.set s k true) ([] : GoMap Bool) ["__index_0__"])
        ["__index_0__"]) = ["__index_0__"] := by decide
    rw [hk3, iterOrder_singleton hρ]
  unfold Compare
  simp only []
  rw [hm1, hm2, hkeys]
  simp [compareStep, GoMap.contains, GoMap.get, docAt, GoMap.set, hraw]

/-- C9, on two documents without a `metadata` field. -/
theorem Compare_fallback_pair_witness :
    IterOrder List.reverse ∧
    (Compare List.reverse "metadata.name"
        [⟨[("a", .int 1)], "a: 1", ""⟩] [⟨[("a", .int 2)], "a: 2", ""⟩]).Modified =
      [("__index_0__",
        { Old := ⟨[("a", .int 1)], "a: 1", "__index_0__"⟩
          New := ⟨[("a", .int 2)], "a: 2", "__index_0__"⟩
          Diffs := CompareValues List.reverse "" (.map [("a", .int 1)])
            (.map [("a", .int 2)]) })] :=
  ⟨fun l => List.reverse_perm l,
    (Compare_fallback_pair List.reverse (fun l => List.reverse_perm l) "metadata.name"
      ⟨[("a", .int 1)], "a: 1", ""⟩ ⟨[("a", .int 2)], "a: 2", ""⟩
      (by decide) (by decide) (by decide)).2.2⟩

/-! ## The structural comparison `CompareValues` -/

theorem foldl_append_eq_flatMap {α β : Type} (F : α → List β) (l : List α) (acc : List β) :
    l.foldl (fun d k => d ++ F k) acc = acc ++ l.flatMap F := by
  induction l generalizing acc with
  | nil => simp
  | cons a l ih => rw [List.foldl_cons, ih, List.flatMap_cons, List.append_assoc]

/-- On two mappings `CompareValues` concatenates, in the order in which the
union of the keys is enumerated, the entries of each key. -/
theorem CompareValues_map (ρ : List String → List String) (path : String)
    (oldMap newMap : GoMap Value) :
    CompareValues ρ path (.map oldMap) (.map newMap) =
      (ρ (GoMap.keys (allKeysOf ρ oldMap newMap))).flatMap (keyEntries ρ path oldMap newMap) := by
  rw [CompareValues.eq_1]
  simp only [asMap]
  rw [← List.nil_append (List.flatMap _ _), ← foldl_append_eq_flatMap]
  congr 1
  funext diffs key
  unfold keyEntries
  split <;> simp_all

/-- When one of the two values is not a mapping `CompareValues` compares the two
renderings. -/
theorem CompareValues_leaf (ρ : List String → List String) (path : String)
    (oldVal newVal : Value) (h : asMap oldVal = none ∨ asMap newVal = none) :
    CompareValues ρ path oldVal newVal =
      if fmtV oldVal ≠ fmtV newVal then
        ["~ " ++ path ++ ": " ++ fmtV oldVal ++ " â†’ " ++ fmtV newVal]
      else [] := by
  rw [CompareValues.eq_1]
  split
  · rename_i h1 h2
    rcases h with h | h
    · rw [h] at h1
      cases h1
    · rw [h] at h2
      cases h2
  · rfl

theorem structuralDiff_map (path : String) (oldMap newMap : GoMap Value) :
    structuralDiff path (.map oldMap) (.map newMap) =
      (sortedOrder (GoMap.keys oldMap ∪ GoMap.keys newMap)).flatMap
        (refKeyEntries path oldMap newMap) := by
  rw [structuralDiff.eq_1]
  simp only [asMap]
  congr 1
  funext k
  unfold refKeyEntries
  split <;> simp_all

theorem structuralDiff_leaf (path : String) (oldValue newValue : Value)
    (h : asMap oldValue = none ∨ asMap newValue = none) :
    structuralDiff path oldValue newValue =
      if fmtV oldValue = fmtV newValue then [] else [.changed path oldValue newValue] := by
  rw [structuralDiff.eq_1]
  split
  · rename_i h1 h2
    rcases h with h | h
    · rw [h] at h1
      cases h1
    · rw [h] at h2
      cases h2
  · rfl

theorem childPath_eq (path k : String) :
    childPath path k = if path = "" then k else path ++ "." ++ k := by
  unfold childPath
  by_cases h : path = "" <;> simp [h]

theorem sortedOrder_perm (l : List String) : (sortedOrder l).Perm l :=
  List.perm_insertionSort _ l

theorem iterOrder_sortedOrder : IterOrder sortedOrder := sortedOrder_perm

theorem allKeys_perm_union {ρ : List String → List String} (hρ : IterOrder ρ)
    (oldMap newMap : GoMap Value) :
    (ρ (GoMap.keys (allKeysOf ρ oldMap newMap))).Perm
      (sortedOrder (GoMap.keys oldMap ∪ GoMap.keys newMap)) := by
  refine (hρ _).trans (List.Perm.trans ?_ (sortedOrder_perm _).symm)
  rw [List.perm_ext_iff_of_nodup (GoMap.nodup_keys _)
    (List.Nodup.union _ (GoMap.nodup_keys newMap))]
  intro k
  rw [← (hρ _).mem_iff, mem_allKeysOf hρ, List.mem_union_iff]

theorem asMap_eq_some {v : Value} {m : GoMap Value} (h : asMap v = some m) : v = .map m := by
  cases v <;> simp [asMap] at h
  rw [h]

theorem CompareValues_perm_aux {ρ : List String → List String} (hρ : IterOrder ρ) (N : Nat) :
    ∀ (path : String) (oldVal newVal : Value), sizeOf oldVal ≤ N →
      (CompareValues ρ path oldVal newVal).Perm
        ((structuralDiff path oldVal newVal).map DiffEntry.render) := by
  induction N with
  | zero =>
    intro path oldVal newVal hsz
    cases oldVal <;> simp at hsz
  | succ N ih =>
    intro path oldVal newVal hsz
    cases ho : asMap oldVal with
    | none =>
      rw [CompareValues_leaf ρ path oldVal newVal (Or.inl ho),
        structuralDiff_leaf path oldVal newVal (Or.inl ho)]
      by_cases hf : fmtV oldVal = fmtV newVal <;> simp [hf, DiffEntry.render]
    | some oldMap =>
      cases hn : asMap newVal with
      | none =>
        rw [CompareValues_leaf ρ path oldVal newVal (Or.inr hn),
          structuralDiff_leaf path oldVal newVal (Or.inr hn)]
        by_cases hf : fmtV oldVal = fmtV newVal <;> simp [hf, DiffEntry.render]
      | some newMap =>
        have hov := asMap_eq_some ho
        have hnv := asMap_eq_some hn
        subst hov hnv
        rw [CompareValues_map, structuralDiff_map, List.map_flatMap]
        refine ((allKeys_perm_union hρ oldMap newMap).flatMap_right _).trans ?_
        apply List.Perm.flatMap_left
        intro k _
        unfold keyEntries refKeyEntries
        rw [← childPath_eq]
        cases hgo : GoMap.get oldMap k with
        | none =>
          cases hgn : GoMap.get newMap k with
          | none => simp
          | some newV => simp [DiffEntry.render]
        | some oldV =>
          cases hgn : GoMap.get newMap k with
          | none => simp [DiffEntry.render]
          | some newV =>
            simp only []
            apply ih
            have h1 := sizeOf_get_lt hgo
            have h2 : sizeOf (Value.map oldMap) = 1 + sizeOf oldMap := by simp
            omega

/-- C7: for every admissible enumeration order the entries of `CompareValues`
are, as a multiset, the entries of the reference structural diff: on two
mappings one `added` or `deleted` entry for a key of one side only and the
entries of the two children for a key of both, and otherwise nothing or one
`changed` entry according to the two renderings.  Two sequences are compared as
wholes. -/
theorem CompareValues_content (ρ : List String → List String) (hρ : IterOrder ρ)
    (path : String) (oldVal newVal : Value) :
    (CompareValues ρ path oldVal newVal).Perm
      ((structuralDiff path oldVal newVal).map DiffEntry.render) ∧
    (asMap oldVal = none ∨ asMap newVal = none →
      CompareValues ρ path oldVal newVal =
        if fmtV oldVal = fmtV newVal then []
        else [DiffEntry.render (.changed path oldVal newVal)]) ∧
    (asMap oldVal = none ∨ asMap newVal = none →
      structuralDiff path oldVal newVal =
        if fmtV oldVal = fmtV newVal then [] else [.changed path oldVal newVal]) := by
  refine ⟨CompareValues_perm_aux hρ (sizeOf oldVal) path oldVal newVal (Nat.le_refl _), ?_,
    structuralDiff_leaf path oldVal newVal⟩
  intro h
  rw [CompareValues_leaf ρ path oldVal newVal h]
  by_cases hf : fmtV oldVal = fmtV newVal <;> simp [hf, DiffEntry.render]

/-- C7, on the two mappings `{a:1, b:2}` and `{a:1, b:3, c:4}` with the keys
enumerated as they are stored. -/
theorem CompareValues_content_witness :
    IterOrder id ∧
    (CompareValues id "" (.map [("a", .int 1), ("b", .int 2)])
        (.map [("a", .int 1), ("b", .int 3), ("c", .int 4)])).Perm
      ((structuralDiff "" (.map [("a", .int 1), ("b", .int 2)])
        (.map [("a", .int 1), ("b", .int 3), ("c", .int 4)])).map DiffEntry.render) :=
  ⟨fun l => List.Perm.refl l,
    (CompareValues_content id (fun l => List.Perm.refl l) ""
      (.map [("a", .int 1), ("b", .int 2)])
      (.map [("a", .int 1), ("b", .int 3), ("c", .int 4)])).1⟩

/-- C6, at the example of the specification: with the keys enumerated as they
are stored `CompareValues` returns the `c` entry before the `b` entry, and with
the keys enumerated in sorted order it returns the `b` entry first.  Both
enumeration orders are admissible, so the order of the entries is not fixed by
the inputs. -/
theorem CompareValues_order_depends :
    IterOrder id ∧ IterOrder sortedOrder ∧
    CompareValues id "" (.map [("a", .int 1), ("b", .int 2)])
        (.map [("a", .int 1), ("b", .int 3), ("c", .int 4)]) =
      ["+ c: 4", "~ b: 2 â†’ 3"] ∧
    CompareValues sortedOrder "" (.map [("a", .int 1), ("b", .int 2)])
        (.map [("a", .int 1), ("b", .int 3), ("c", .int 4)]) =
      ["~ b: 2 â†’ 3", "+ c: 4"] := by
  refine ⟨fun l => List.Perm.refl l, iterOrder_sortedOrder, ?_, ?_⟩
  · rw [CompareValues_map]
    have hk : id (GoMap.keys (allKeysOf id
        ([("a", .int 1), ("b", .int 2)] : GoMap Value)
        [("a", .int 1), ("b", .int 3), ("c", .int 4)])) = ["c", "b", "a"] := by decide
    rw [hk]
    simp [keyEntries, GoMap.get, List.lookup, CompareValues_leaf, asMap, fmtV]
    decide
  · rw [CompareValues_map]
    have hk : sortedOrder (GoMap.keys (allKeysOf sortedOrder
        ([("a", .int 1), ("b", .int 2)] : GoMap Value)
        [("a", .int 1), ("b", .int 3), ("c", .int 4)])) = ["a", "b", "c"] := by decide
    rw [hk]
    simp [keyEntries, GoMap.get, List.lookup, CompareValues_leaf, asMap, fmtV]
    decide


/-! ## Labels -/

theorem GetLabels_noChanges (c : CompareConfig) (added deleted modified : Int)
    (h : ¬(0 < added) ∧ ¬(0 < deleted) ∧ ¬(0 < modified)) :
    GetLabels c added deleted modified =
      if c.WhenNoChanges.Label = "" then [] else [c.WhenNoChanges.Label] := by
  obtain ⟨ha, hd, hm⟩ := h
  unfold GetLabels
  by_cases hl : c.WhenNoChanges.Label = "" <;> simp [ha, hd, hm, hl]

theorem GetLabels_changes (c : CompareConfig) (added deleted modified : Int)
    (h : 0 < added ∨ 0 < deleted ∨ 0 < modified) :
    GetLabels c added deleted modified = applicableLabels c added deleted modified := by
  unfold GetLabels applicableLabels changeLabels
  by_cases ha : 0 < added <;> by_cases hd : 0 < deleted <;> by_cases hm : 0 < modified <;>
    by_cases la : c.WhenHasAdditions.Label = "" <;>
    by_cases ld : c.WhenHasDeletions.Label = "" <;>
    by_cases lm : c.WhenHasModifications.Label = "" <;>
    simp [ha, hd, hm, la, ld, lm, List.filter] at h ⊢

theorem applicableLabels_mem (c : CompareConfig) (added deleted modified : Int) (x : String)
    (hx : x ∈ applicableLabels c added deleted modified) :
    x ≠ "" ∧ ((0 < added ∧ x = c.WhenHasAdditions.Label) ∨
      (0 < deleted ∧ x = c.WhenHasDeletions.Label) ∨
      (0 < modified ∧ x = c.WhenHasModifications.Label)) := by
  unfold applicableLabels changeLabels at hx
  simp only [List.mem_map, List.mem_filter, List.mem_cons, List.mem_singleton,
    Bool.and_eq_true, decide_eq_true_eq, List.not_mem_nil, or_false] at hx
  obtain ⟨p, ⟨hp, hpos, hne⟩, rfl⟩ := hx
  refine ⟨hne, ?_⟩
  rcases hp with rfl | rfl | rfl
  · exact Or.inl ⟨hpos, rfl⟩
  · exact Or.inr (Or.inl ⟨hpos, rfl⟩)
  · exact Or.inr (Or.inr ⟨hpos, rfl⟩)

/-- C11: when no count is positive `GetLabels` returns the no-changes label
alone, or nothing when that label is empty; otherwise it returns, in the order
additions, deletions, modifications, the configured labels of the categories
with a positive count and a non-empty label, all three when all three counts are
positive and all three labels configured.  No returned label is empty; with no
positive count every returned label is the no-changes label, and with a positive
count every returned label is the label of a category with a positive count. -/
theorem GetLabels_spec (c : CompareConfig) (added deleted modified : Int) :
    (¬(0 < added) ∧ ¬(0 < deleted) ∧ ¬(0 < modified) →
      GetLabels c added deleted modified =
        if c.WhenNoChanges.Label = "" then [] else [c.WhenNoChanges.Label]) ∧
    (0 < added ∨ 0 < deleted ∨ 0 < modified →
      GetLabels c added deleted modified = applicableLabels c added deleted modified) ∧
    (0 < added ∧ 0 < deleted ∧ 0 < modified ∧ c.WhenHasAdditions.Label ≠ "" ∧
        c.WhenHasDeletions.Label ≠ "" ∧ c.WhenHasModifications.Label ≠ "" →
      GetLabels c added deleted modified =
        [c.WhenHasAdditions.Label, c.WhenHasDeletions.Label, c.WhenHasModifications.Label]) ∧
    "" ∉ GetLabels c added deleted modified ∧
    (¬(0 < added) ∧ ¬(0 < deleted) ∧ ¬(0 < modified) →
      ∀ x, x ∈ GetLabels c added deleted modified → x = c.WhenNoChanges.Label) ∧
    (0 < added ∨ 0 < deleted ∨ 0 < modified →
      ∀ x, x ∈ GetLabels c added deleted modified →
        (0 < added ∧ x = c.WhenHasAdditions.Label) ∨
        (0 < deleted ∧ x = c.WhenHasDeletions.Label) ∨
        (0 < modified ∧ x = c.WhenHasModifications.Label)) := by
  refine ⟨GetLabels_noChanges c added deleted modified,
    GetLabels_changes c added deleted modified, ?_, ?_, ?_, ?_⟩
  · rintro ⟨ha, hd, hm, la, ld, lm⟩
    rw [GetLabels_changes c added deleted modified (Or.inl ha)]
    simp [applicableLabels, changeLabels, List.filter, ha, hd, hm, la, ld, lm]
  · intro hmem
    by_cases h : 0 < added ∨ 0 < deleted ∨ 0 < modified
    · rw [GetLabels_changes c added deleted modified h] at hmem
      exact (applicableLabels_mem c added deleted modified "" hmem).1 rfl
    · have h' : ¬(0 < added) ∧ ¬(0 < deleted) ∧ ¬(0 < modified) := by tauto
      rw [GetLabels_noChanges c added deleted modified h'] at hmem
      by_cases hl : c.WhenNoChanges.Label = ""
      · simp [hl] at hmem
      · simp only [if_neg hl, List.mem_singleton] at hmem
        exact hl hmem.symm
  · intro h x hx
    rw [GetLabels_noChanges c added deleted modified h] at hx
    by_cases hl : c.WhenNoChanges.Label = ""
    · simp [hl] at hx
    · simpa [hl] using hx
  · intro h x hx
    rw [GetLabels_changes c added deleted modified h] at hx
    exact (applicableLabels_mem c added deleted modified x hx).2

/-- C11, on a configuration with all four labels and the counts 2, 1, 3. -/
theorem GetLabels_spec_witness :
    GetLabels ⟨"", ⟨"add"⟩, ⟨"del"⟩, ⟨"mod"⟩, ⟨"none"⟩, false, false⟩ 2 1 3 =
      ["add", "del", "mod"] :=
  (GetLabels_spec ⟨"", ⟨"add"⟩, ⟨"del"⟩, ⟨"mod"⟩, ⟨"none"⟩, false, false⟩ 2 1 3).2.2.1
    ⟨by decide, by decide, by decide, by decide, by decide, by decide⟩

/-! ## What an empty diff says about the two values -/

theorem mem_keys_of_get {α : Type} {m : GoMap α} {k : String} {v : α}
    (h : GoMap.get m k = some v) : k ∈ GoMap.keys m := by
  rw [GoMap.mem_keys, h]
  rfl

theorem get_of_mem_keys {α : Type} {m : GoMap α} {k : String} (h : k ∈ GoMap.keys m) :
    ∃ v, GoMap.get m k = some v := by
  rw [GoMap.mem_keys] at h
  exact Option.isSome_iff_exists.1 h

theorem CompareValues_nil_aux {ρ : List String → List String} (hρ : IterOrder ρ) (N : Nat) :
    ∀ (path : String) (oldVal newVal : Value), sizeOf oldVal ≤ N →
      CompareValues ρ path oldVal newVal = [] → RenderEq oldVal newVal := by
  induction N with
  | zero =>
    intro path oldVal newVal hsz
    cases oldVal <;> simp at hsz
  | succ N ih =>
    intro path oldVal newVal hsz hnil
    cases ho : asMap oldVal with
    | none =>
      rw [CompareValues_leaf ρ path oldVal newVal (Or.inl ho)] at hnil
      refine RenderEq.leaf oldVal newVal (Or.inl ho) ?_
      by_contra hf
      simp [hf] at hnil
    | some oldMap =>
      cases hn : asMap newVal with
      | none =>
        rw [CompareValues_leaf ρ path oldVal newVal (Or.inr hn)] at hnil
        refine RenderEq.leaf oldVal newVal (Or.inr hn) ?_
        by_contra hf
        simp [hf] at hnil
      | some newMap =>
        have hov := asMap_eq_some ho
        have hnv := asMap_eq_some hn
        subst hov hnv
        rw [CompareValues_map, List.flatMap_eq_nil_iff] at hnil
        have hkey : ∀ k, k ∈ GoMap.keys oldMap ∨ k ∈ GoMap.keys newMap →
            keyEntries ρ path oldMap newMap k = [] := fun k hk =>
          hnil k ((mem_allKeysOf hρ oldMap newMap k).2 hk)
        refine RenderEq.maps oldMap newMap ?_ ?_
        · intro k
          constructor
          · intro hk
            obtain ⟨ov, hov⟩ := get_of_mem_keys hk
            have := hkey k (Or.inl hk)
            unfold keyEntries at this
            rw [hov] at this
            cases hgn : GoMap.get newMap k with
            | none => simp [hgn] at this
            | some nv => exact mem_keys_of_get hgn
          · intro hk
            obtain ⟨nv, hnv⟩ := get_of_mem_keys hk
            have := hkey k (Or.inr hk)
            unfold keyEntries at this
            rw [hnv] at this
            cases hgo : GoMap.get oldMap k with
            | none => simp [hgo] at this
            | some ov => exact mem_keys_of_get hgo
        · intro k oldV newV hgo hgn
          have := hkey k (Or.inl (mem_keys_of_get hgo))
          unfold keyEntries at this
          rw [hgo, hgn] at this
          simp only [] at this
          refine ih _ oldV newV ?_ this
          have h1 := sizeOf_get_lt hgo
          have h2 : sizeOf (Value.map oldMap) = 1 + sizeOf oldMap := by simp
          omega

theorem CompareValues_nil_of_renderEq {ρ : List String → List String} (hρ : IterOrder ρ)
    (oldVal newVal : Value) (h : RenderEq oldVal newVal) :
    ∀ path, CompareValues ρ path oldVal newVal = [] := by
  induction h with
  | leaf oldVal newVal hleaf hfmt =>
    intro path
    rw [CompareValues_leaf ρ path oldVal newVal hleaf]
    simp [hfmt]
  | maps oldMap newMap hkeys _ ih =>
    intro path
    rw [CompareValues_map, List.flatMap_eq_nil_iff]
    intro k hk
    rcases (mem_allKeysOf hρ oldMap newMap k).1 hk with hko | hkn
    · obtain ⟨ov, hov⟩ := get_of_mem_keys hko
      obtain ⟨nv, hnv⟩ := get_of_mem_keys ((hkeys k).1 hko)
      unfold keyEntries
      rw [hov, hnv]
      exact ih k ov nv hov hnv _
    · obtain ⟨ov, hov⟩ := get_of_mem_keys ((hkeys k).2 hkn)
      obtain ⟨nv, hnv⟩ := get_of_mem_keys hkn
      unfold keyEntries
      rw [hov, hnv]
      exact ih k ov nv hov hnv _

/-- C12, as stated, fails: the mappings `{a: "1"}` and `{a: 1}` are different
values, the string `1` in one and the integer `1` in the other, and
`CompareValues` returns no entry for them, because both render as `1`. -/
theorem CompareValues_misses_difference :
    CompareValues id "" (.map [("a", .str "1")]) (.map [("a", .int 1)]) = [] ∧
    Value.map [("a", .str "1")] ≠ Value.map [("a", .int 1)] := by
  constructor
  · rw [CompareValues_map]
    have hk : id (GoMap.keys (allKeysOf id ([("a", .str "1")] : GoMap Value)
        [("a", .int 1)])) = ["a"] := by decide
    rw [hk]
    simp [keyEntries, GoMap.get, List.lookup, CompareValues_leaf, asMap, fmtV]
    decide
  · intro h
    simp at h

/-- C12, amended: for every admissible enumeration order `CompareValues` returns
no entry exactly when the two values are equal up to rendering: two mappings
with the same keys whose children under each key are again so related, or, when
one side is not a mapping, two values that `fmt` renders alike. -/
theorem CompareValues_nil_iff (ρ : List String → List String) (hρ : IterOrder ρ)
    (path : String) (oldVal newVal : Value) :
    CompareValues ρ path oldVal newVal = [] ↔ RenderEq oldVal newVal :=
  ⟨CompareValues_nil_aux hρ (sizeOf oldVal) path oldVal newVal (Nat.le_refl _),
    fun h => CompareValues_nil_of_renderEq hρ oldVal newVal h path⟩

/-- C12, amended, on the mappings `{a: "1"}` and `{a: 1}`. -/
theorem CompareValues_nil_iff_witness :
    IterOrder id ∧
    (CompareValues id "" (.map [("a", .str "1")]) (.map [("a", .int 1)]) = [] ↔
      RenderEq (.map [("a", .str "1")]) (.map [("a", .int 1)])) :=
  ⟨fun l => List.Perm.refl l,
    CompareValues_nil_iff id (fun l => List.Perm.refl l) ""
      (.map [("a", .str "1")]) (.map [("a", .int 1)])⟩

end YamlDiff
